import Mathlib

/-!
Shallow embedding of `src/ExtendibleHashFile.hpp` (extendible hashing index).

Bit sequences are modelled as `List Bool` in the order produced by
`std::bitset<D>::to_string()`: position `p` of the list is bit `D-1-p` of the
value, so the most significant bit comes first and the low-order bit `j` of the
value sits at list position `D-1-j`, exactly as in the C++ string indexing
`sequence[D - 1 - j]`.
-/

namespace ExtHash

/-- Models `std::bitset<D>(v).to_string()`: the `D`-character binary string of
`v`'s low `D` bits, most significant character first. -/
def natToBits (D v : Nat) : List Bool :=
  (List.range D).map (fun p => Nat.testBit v (D - 1 - p))

/-- Models `struct ExtendibleHashEntry<D>` (source lines 77-82): a local depth,
the stored binary hash sequence `char sequence[D+1]` (its `D` characters as
booleans, `'1' = true`), and a disk reference `long bucket_ref`. -/
structure ExtendibleHashEntry where
  local_depth : Nat
  sequence : List Bool
  bucket_ref : Int
deriving Repr, DecidableEq

/-- Models the default constructor `ExtendibleHash()` (source lines 89-95):
a single entry with `local_depth = 0`, sequence `bitset<D>(0).to_string()`
and `bucket_ref = 0`. -/
def freshDir (D : Nat) : List ExtendibleHashEntry :=
  [{ local_depth := 0, sequence := natToBits D 0, bucket_ref := 0 }]

/-- Models the matching loop inside `ExtendibleHash::lookup` (source lines
118-126): the candidate sequence and the entry's stored sequence agree at the
string positions `D-1-j` for every `j < local_depth`, i.e. on the low-order
`local_depth` bits compared from the least-significant position outward. -/
def matchesEntry (D : Nat) (e : ExtendibleHashEntry) (bits : List Bool) : Bool :=
  (List.range e.local_depth).all
    (fun j => bits.getD (D - 1 - j) false == e.sequence.getD (D - 1 - j) false)

/-- Models `ExtendibleHash::lookup` (source lines 116-132): scan the entries in
order, return the `bucket_ref` of the first entry whose sequence matches, and
throw `std::runtime_error` when no entry matches. -/
def lookup (D : Nat) (entries : List ExtendibleHashEntry) (bits : List Bool) :
    Except String Int :=
  match entries with
  | [] => .error "Could not find given hash sequence on ExtendibleHash."
  | e :: rest => if matchesEntry D e bits then .ok e.bucket_ref else lookup D rest bits

/-- Models the hash-sequence computation shared by `ExtendibleHashFile::search`
(line 215) and `ExtendibleHashFile::insert` (line 226):
`std::bitset<global_depth>(hash_function(key) % global_depth).to_string()` —
note the reduction of the hash value modulo `global_depth` itself. -/
def hashSeqCode (D h : Nat) : List Bool :=
  natToBits D (h % D)

/-- Stated from the spec's words (for comparison with `hashSeqCode`): "take the
low-order `D` bits of a wide hash", i.e. the bit string of `h mod 2^D`. -/
def lowBitsSpec (D h : Nat) : List Bool :=
  natToBits D (h % 2 ^ D)

lemma lookup_ok_mem {D : Nat} {entries : List ExtendibleHashEntry} {bits : List Bool}
    {r : Int} (h : lookup D entries bits = .ok r) :
    ∃ e ∈ entries, matchesEntry D e bits = true ∧ e.bucket_ref = r := by
  induction entries with
  | nil => simp [lookup] at h
  | cons e rest ih =>
    rw [lookup] at h
    by_cases hm : matchesEntry D e bits
    · refine ⟨e, List.mem_cons_self e rest, hm, ?_⟩
      simp [hm] at h
      exact h
    · simp [hm] at h
      obtain ⟨e', he', hm', hr⟩ := ih h
      exact ⟨e', List.mem_cons_of_mem e he', hm', hr⟩

lemma lookup_error_iff {D : Nat} {entries : List ExtendibleHashEntry} {bits : List Bool} :
    (∃ msg, lookup D entries bits = .error msg) ↔
      ∀ e ∈ entries, matchesEntry D e bits = false := by
  induction entries with
  | nil => simp [lookup]
  | cons e rest ih =>
    rw [lookup]
    by_cases hm : matchesEntry D e bits
    · simp [hm]
    · simpa [hm] using ih

lemma lookup_ok_of_mem {D : Nat} {entries : List ExtendibleHashEntry} {bits : List Bool}
    (h : ∃ e ∈ entries, matchesEntry D e bits = true) :
    ∃ r, lookup D entries bits = .ok r := by
  induction entries with
  | nil => simp at h
  | cons e rest ih =>
    rw [lookup]
    by_cases hm : matchesEntry D e bits
    · exact ⟨e.bucket_ref, by simp [hm]⟩
    · rw [if_neg hm]
      refine ih ?_
      obtain ⟨e', he', hm'⟩ := h
      rcases List.mem_cons.mp he' with rfl | hmem
      · exact absurd hm' hm
      · exact ⟨e', hmem, hm'⟩

lemma matchesEntry_depth_zero {D : Nat} {e : ExtendibleHashEntry}
    (h : e.local_depth = 0) (bits : List Bool) : matchesEntry D e bits = true := by
  simp [matchesEntry, h]

lemma lookup_freshDir (D : Nat) (bits : List Bool) :
    lookup D (freshDir D) bits = .ok 0 := by
  simp [freshDir, lookup, matchesEntry]

/-! ### Byte-level persistence of the directory

The loader `ExtendibleHash(std::fstream&)` (source lines 96-113) reads the
directory file as consecutive `sizeof(ExtendibleHashEntry<D>)`-byte chunks and
reinterprets each chunk as a struct.  A chunk is the struct's memory image:
8 bytes of `std::size_t local_depth`, the `D+1` characters of
`char sequence[D+1]` (ASCII `'0'`/`'1'` followed by the terminating NUL),
trailing padding up to 8-byte alignment, and 8 bytes of `long bucket_ref`.
Bytes are modelled as naturals below 256. -/

/-- Little-endian base-256 image of a `k`-byte unsigned integer field. -/
def encodeNatLE : Nat → Nat → List Nat
  | 0, _ => []
  | k + 1, n => n % 256 :: encodeNatLE k (n / 256)

/-- Reads a little-endian base-256 byte list back into a natural number. -/
def decodeNatLE : List Nat → Nat
  | [] => 0
  | b :: bs => b + 256 * decodeNatLE bs

/-- Two's-complement 8-byte image of a C++ `long`. -/
def encodeInt64 (i : Int) : List Nat :=
  encodeNatLE 8 (i % (2 ^ 64 : Int)).toNat

/-- Reads an 8-byte two's-complement image back into an integer. -/
def decodeInt64 (bs : List Nat) : Int :=
  let n := decodeNatLE bs
  if n < 2 ^ 63 then (n : Int) else (n : Int) - 2 ^ 64

/-- ASCII byte of one character of `char sequence[D+1]`: `'1' = 49`, `'0' = 48`. -/
def bitChar (b : Bool) : Nat := if b then 49 else 48

/-- Trailing padding of `ExtendibleHashEntry<D>` up to 8-byte alignment. -/
def padOf (D : Nat) : Nat := (8 - (D + 1) % 8) % 8

/-- Models `sizeof(ExtendibleHashEntry<D>)`, the chunk size the loader reads. -/
def entrySize (D : Nat) : Nat := 8 + (D + 1) + padOf D + 8

/-- Memory image of one `ExtendibleHashEntry<D>` value. -/
def encodeEntry (D : Nat) (e : ExtendibleHashEntry) : List Nat :=
  encodeNatLE 8 e.local_depth ++ e.sequence.map bitChar ++ [0]
    ++ List.replicate (padOf D) 0 ++ encodeInt64 e.bucket_ref

/-- Reinterprets one `sizeof`-chunk as a struct, the way the loader's
`buf.read((char *) &newEntry, sizeof(newEntry))` does. -/
def decodeEntry (D : Nat) (bs : List Nat) : ExtendibleHashEntry :=
  { local_depth := decodeNatLE (bs.take 8)
    sequence := ((bs.drop 8).take D).map (fun c => c == 49)
    bucket_ref := decodeInt64 ((bs.drop (8 + (D + 1) + padOf D)).take 8) }

/-- Modelled from the spec: the teardown serialization of the directory.  The
source destructor (line 236) calls a malformed `index_file.write()` with no
arguments; the spec's teardown protocol says "serialize every Directory entry
back to the directory file", so each entry's memory image is written in order
(the format the source loader reads back). -/
def serializeDir (D : Nat) : List ExtendibleHashEntry → List Nat
  | [] => []
  | e :: rest => encodeEntry D e ++ serializeDir D rest

/-- Models the loading constructor `ExtendibleHash(std::fstream&)` (source
lines 96-113): read `sizeof(ExtendibleHashEntry<D>)`-byte chunks while the
stream has them; a final partial chunk fails the read, sets eof, and is
discarded by the `if (!buf.eof())` guard. -/
def deserializeDir (D : Nat) (bytes : List Nat) : List ExtendibleHashEntry :=
  if _h : entrySize D ≤ bytes.length then
    decodeEntry D (bytes.take (entrySize D)) ::
      deserializeDir D (bytes.drop (entrySize D))
  else []
termination_by bytes.length
decreasing_by simp [entrySize] at *; omega

/-- Well-formedness of an entry as stored by the C++ struct: the sequence holds
exactly `D` characters and the integer fields fit their 8-byte slots. -/
def entryWF (D : Nat) (e : ExtendibleHashEntry) : Prop :=
  e.sequence.length = D ∧ e.local_depth < 2 ^ 64 ∧
    -(2 ^ 63) ≤ e.bucket_ref ∧ e.bucket_ref < 2 ^ 63

instance (D : Nat) (e : ExtendibleHashEntry) : Decidable (entryWF D e) := by
  unfold entryWF; infer_instance

lemma length_encodeNatLE (k n : Nat) : (encodeNatLE k n).length = k := by
  induction k generalizing n with
  | zero => rfl
  | succ k ih => simp [encodeNatLE, ih]

lemma decodeNatLE_encodeNatLE (k n : Nat) :
    decodeNatLE (encodeNatLE k n) = n % 256 ^ k := by
  induction k generalizing n with
  | zero => simp [encodeNatLE, decodeNatLE, Nat.mod_one]
  | succ k ih =>
    rw [encodeNatLE, decodeNatLE, ih, pow_succ, mul_comm (256 ^ k) 256, Nat.mod_mul]

lemma decodeInt64_encodeInt64 {i : Int} (h0 : -(2 ^ 63) ≤ i) (h1 : i < 2 ^ 63) :
    decodeInt64 (encodeInt64 i) = i := by
  have hpow : (256 : Nat) ^ 8 = 2 ^ 64 := by norm_num
  rcases le_or_lt 0 i with hi | hi
  · have hmod : i % (2 ^ 64 : Int) = i := Int.emod_eq_of_lt hi (h1.trans (by norm_num))
    have htn63 : i.toNat < 2 ^ 63 := by
      rw [Int.toNat_lt' (by norm_num)]
      exact h1.trans_eq (by norm_num)
    have hlt64 : i.toNat < 2 ^ 64 := htn63.trans (by norm_num)
    simp only [encodeInt64, hmod, decodeInt64, decodeNatLE_encodeNatLE, hpow]
    rw [Nat.mod_eq_of_lt hlt64, if_pos htn63]
    exact Int.toNat_of_nonneg hi
  · have hadd0 : (0 : Int) ≤ i + 2 ^ 64 := by
      have : (2 : Int) ^ 64 = 2 ^ 63 + 2 ^ 63 := by ring
      linarith
    have hadd1 : i + 2 ^ 64 < 2 ^ 64 := by linarith
    have hmod : i % (2 ^ 64 : Int) = i + 2 ^ 64 := by
      have h2 : (i + 2 ^ 64 * 1) % (2 ^ 64 : Int) = i % (2 ^ 64 : Int) :=
        Int.add_mul_emod_self_left i (2 ^ 64) 1
      rw [mul_one] at h2
      rw [← h2, Int.emod_eq_of_lt hadd0 hadd1]
    have hcast : ((i + 2 ^ 64).toNat : Int) = i + 2 ^ 64 := Int.toNat_of_nonneg hadd0
    have hge63 : ¬ (i + 2 ^ 64).toNat < 2 ^ 63 := by
      rw [Int.toNat_lt' (by norm_num)]
      push_cast
      have : (2 : Int) ^ 64 = 2 ^ 63 + 2 ^ 63 := by ring
      intro hcon
      linarith
    have hlt64 : (i + 2 ^ 64).toNat < 2 ^ 64 := by
      rw [Int.toNat_lt' (by norm_num)]
      push_cast
      linarith
    simp only [encodeInt64, hmod, decodeInt64, decodeNatLE_encodeNatLE, hpow]
    rw [Nat.mod_eq_of_lt hlt64, if_neg hge63, hcast]
    ring

lemma length_encodeEntry {D : Nat} {e : ExtendibleHashEntry}
    (h : e.sequence.length = D) : (encodeEntry D e).length = entrySize D := by
  simp [encodeEntry, entrySize, length_encodeNatLE, encodeInt64, h]
  omega

lemma decodeEntry_encodeEntry {D : Nat} {e : ExtendibleHashEntry}
    (hwf : entryWF D e) : decodeEntry D (encodeEntry D e) = e := by
  obtain ⟨hlen, hd, hr0, hr1⟩ := hwf
  cases e with
  | mk d s r =>
    simp only at hlen hd hr0 hr1
    have h8 : (encodeNatLE 8 d).length = 8 := length_encodeNatLE 8 d
    have hint : (encodeInt64 r).length = 8 := length_encodeNatLE 8 _
    have hmaplen : (List.map bitChar s).length = D := by simpa using hlen
    unfold decodeEntry encodeEntry
    dsimp only
    rw [ExtendibleHashEntry.mk.injEq]
    refine ⟨?_, ?_, ?_⟩
    · rw [List.append_assoc, List.append_assoc, List.append_assoc,
        List.take_left' h8, decodeNatLE_encodeNatLE]
      exact Nat.mod_eq_of_lt (lt_of_lt_of_eq hd (by norm_num))
    · rw [List.append_assoc, List.append_assoc, List.append_assoc,
        List.drop_left' h8, List.take_left' hmaplen, List.map_map]
      have hcomp : ((fun c : Nat => c == 49) ∘ bitChar) = id := by
        funext b; cases b <;> rfl
      rw [hcomp, List.map_id]
    · have h1 : encodeNatLE 8 d ++ List.map bitChar s ++ [0] ++
          List.replicate (padOf D) 0 ++ encodeInt64 r =
          (encodeNatLE 8 d ++ List.map bitChar s ++ [0] ++
            List.replicate (padOf D) 0) ++ encodeInt64 r := by
        simp [List.append_assoc]
      have h2 : (encodeNatLE 8 d ++ List.map bitChar s ++ [0] ++
          List.replicate (padOf D) 0).length = 8 + (D + 1) + padOf D := by
        simp [h8, hmaplen]
        omega
      rw [h1, List.drop_left' h2, ← hint, List.take_length,
        decodeInt64_encodeInt64 hr0 hr1]

lemma entrySize_pos (D : Nat) : 0 < entrySize D := by
  simp [entrySize]

lemma deserializeDir_nil (D : Nat) : deserializeDir D [] = [] := by
  rw [deserializeDir]
  simp [entrySize]

lemma deserializeDir_serializeDir {D : Nat} {dir : List ExtendibleHashEntry}
    (hwf : ∀ e ∈ dir, entryWF D e) :
    deserializeDir D (serializeDir D dir) = dir := by
  induction dir with
  | nil => exact deserializeDir_nil D
  | cons e rest ih =>
    have he : entryWF D e := hwf e (List.mem_cons_self e rest)
    have hlen : (encodeEntry D e).length = entrySize D := length_encodeEntry he.1
    rw [serializeDir, deserializeDir]
    have hge : entrySize D ≤ (encodeEntry D e ++ serializeDir D rest).length := by
      simp [hlen]
    rw [dif_pos hge, ← hlen, List.take_left, List.drop_left,
      decodeEntry_encodeEntry he, ih (fun e' h' => hwf e' (List.mem_cons_of_mem e h'))]

/-! ### The orchestrator `ExtendibleHashFile`

The file system visible to the class is modelled by the contents of its three
files: the raw data file (a list of records, read with
`raw_file.read((char *) &tmpRecord, sizeof(RecordType))`), the bucket file
`.ehash` and the directory file `_index.ehashind` (byte lists).  A file whose
`peek()` returns `eof` is exactly a file with empty contents; the
`SAFE_FILE_CREATE_IF_NOT_EXISTS` append-open touches no contents.  All file
opens succeed in this model (an `std::ios` open failure is an environment
fault outside the data model). -/

structure FS (Rec : Type u) where
  raw : List Rec
  ehash : List Nat
  idx : List Nat
deriving Repr, DecidableEq

/-- In-memory state of an open `ExtendibleHashFile`: the heap-allocated
`hash_index` directory plus the files. -/
structure EHFState (Rec : Type u) where
  dir : List ExtendibleHashEntry
  fs : FS Rec
deriving Repr, DecidableEq

/-- Models `ExtendibleHashFile::search` (source lines 199-222): compute
`bitset<D>(hash(key) % D)`, resolve the entry via `lookup` (whose
`runtime_error` propagates), read one `Bucket` from `raw_file` at offset
`bucket_ref` (the bucket read into the local variable is discarded), and
return the local `result` vector — which no statement of the method ever
fills, so the returned vector is empty. -/
def searchEHF {Key : Type v} {Rec : Type u} (D : Nat) (hashf : Key → Nat)
    (s : EHFState Rec) (k : Key) : EHFState Rec × Except String (List Rec) :=
  match lookup D s.dir (hashSeqCode D (hashf k)) with
  | .error msg => (s, .error msg)
  | .ok _ => (s, .ok [])

/-- Models `ExtendibleHashFile::insert` (source lines 224-231): open the hash
file, compute `bitset<D>(hash(index(record)) % D)`, resolve the entry via
`lookup` (whose `runtime_error` propagates), print the `bucket_ref` to
`stdout`, close the file.  No record is written anywhere: the comment
`// Insert record into bucket bucket_ref of the data file` is followed by no
code. -/
def insertEHF {Key : Type v} {Rec : Type u} (D : Nat) (hashf : Key → Nat)
    (indexf : Rec → Key) (s : EHFState Rec) (r : Rec) :
    EHFState Rec × Except String Unit :=
  match lookup D s.dir (hashSeqCode D (hashf (indexf r))) with
  | .error msg => (s, .error msg)
  | .ok _ => (s, .ok ())

/-- Models the constructor's replay loop (source lines 175-182): feed every
record of the raw data file through `insert`, stopping at the first thrown
error. -/
def replayRecords {Key : Type v} {Rec : Type u} (D : Nat) (hashf : Key → Nat)
    (indexf : Rec → Key) (s : EHFState Rec) :
    List Rec → EHFState Rec × Except String Unit
  | [] => (s, .ok ())
  | r :: rest =>
    match insertEHF D hashf indexf s r with
    | (s1, .ok _) => replayRecords D hashf indexf s1 rest
    | (s1, .error msg) => (s1, .error msg)

/-- Models the constructor `ExtendibleHashFile::ExtendibleHashFile` (source
lines 157-197).  After the create-if-missing and open steps (which change no
contents), the branch structure over the emptiness of the directory file and
the bucket file is translated literally:
branch 1 (both empty, line 167): allocate a fresh one-entry directory and
replay the raw file's records through `insert`;
branch 2 (line 185, `else if` on `index nonempty || hash nonempty`): throw
`"Corrupt ExtendibleHashFile file structure."`;
branch 3 (line 191): load the directory from the directory file.
The result is the final file contents together with either the built
directory or the thrown error. -/
def openEHF {Key : Type v} {Rec : Type u} (D : Nat) (hashf : Key → Nat)
    (indexf : Rec → Key) (fs : FS Rec) :
    FS Rec × Except String (List ExtendibleHashEntry) :=
  if fs.idx = [] ∧ fs.ehash = [] then
    match replayRecords D hashf indexf ⟨freshDir D, fs⟩ fs.raw with
    | (s1, .ok _) => (s1.fs, .ok s1.dir)
    | (s1, .error msg) => (s1.fs, .error msg)
  else if fs.idx ≠ [] ∨ fs.ehash ≠ [] then
    (fs, .error "Corrupt ExtendibleHashFile file structure.")
  else
    (fs, .ok (deserializeDir D fs.idx))

/-- Models the destructor `~ExtendibleHashFile` (source lines 233-238): the
directory file is reopened with `std::ios::trunc` and the in-memory directory
is written back in full (via the spec-modelled `serializeDir`, the source's
`index_file.write()` being malformed), then the heap directory is deleted.
The in-memory directory is serialized, not altered. -/
def destructorEHF {Rec : Type u} (D : Nat) (s : EHFState Rec) : FS Rec :=
  { s.fs with idx := serializeDir D s.dir }

/-! ### The split operation and directory totality -/

/-- Modelled from the spec: `split(old_entry)` of §4.2.  The source's
`ExtendibleHash::insert` (line 114-115) is an empty stub and no split code
exists under src/, so the operation is taken from the spec's words: the
overflowing entry of local depth `d < D` is replaced by two entries of local
depth `d+1`; the distinguishing bit is appended at the new, more-significant
position of the growing low-order prefix — bit position `d` of the value,
string position `D-1-d` — one child receiving bit `0`, the other bit `1`, and
both children fresh `bucket_ref`s. -/
def splitEntry (D : Nat) (e : ExtendibleHashEntry) (r0 r1 : Int) :
    ExtendibleHashEntry × ExtendibleHashEntry :=
  ({ local_depth := e.local_depth + 1
     sequence := e.sequence.set (D - 1 - e.local_depth) false
     bucket_ref := r0 },
   { local_depth := e.local_depth + 1
     sequence := e.sequence.set (D - 1 - e.local_depth) true
     bucket_ref := r1 })

/-- Directory states reachable from the initial one-entry directory (the
default constructor, source lines 89-95) via split operations (spec §4.2, §8
"Totality"). -/
inductive ReachableDir (D : Nat) : List ExtendibleHashEntry → Prop where
  | start : ReachableDir D (freshDir D)
  | split (pre post : List ExtendibleHashEntry) (e : ExtendibleHashEntry)
      (r0 r1 : Int) :
      ReachableDir D (pre ++ e :: post) → e.local_depth < D →
      ReachableDir D
        (pre ++ (splitEntry D e r0 r1).1 :: (splitEntry D e r0 r1).2 :: post)

/-- Shape invariant of a directory: every entry stores a full `D`-character
sequence and a local depth of at most `D`. -/
def dirWF (D : Nat) (entries : List ExtendibleHashEntry) : Prop :=
  ∀ e ∈ entries, e.sequence.length = D ∧ e.local_depth ≤ D

lemma all_congr_mem {α : Type u} {l : List α} {p q : α → Bool}
    (h : ∀ a ∈ l, p a = q a) : l.all p = l.all q := by
  induction l with
  | nil => rfl
  | cons a l ih =>
    simp only [List.all_cons]
    rw [h a (List.mem_cons_self a l),
      ih (fun b hb => h b (List.mem_cons_of_mem a hb))]

lemma matchesEntry_setChild {D : Nat} {e : ExtendibleHashEntry} {bits : List Bool}
    (hlen : e.sequence.length = D) (hd : e.local_depth < D) (v : Bool) (rv : Int) :
    matchesEntry D
      { local_depth := e.local_depth + 1
        sequence := e.sequence.set (D - 1 - e.local_depth) v
        bucket_ref := rv } bits
      = (matchesEntry D e bits && (bits.getD (D - 1 - e.local_depth) false == v)) := by
  unfold matchesEntry
  dsimp only
  rw [List.range_succ, List.all_append]
  have hsame : ∀ j ∈ List.range e.local_depth,
      (bits.getD (D - 1 - j) false ==
        (e.sequence.set (D - 1 - e.local_depth) v).getD (D - 1 - j) false)
      = (bits.getD (D - 1 - j) false == e.sequence.getD (D - 1 - j) false) := by
    intro j hj
    rw [List.mem_range] at hj
    have hne : D - 1 - e.local_depth ≠ D - 1 - j := by omega
    rw [List.getD_eq_getElem?_getD (e.sequence.set (D - 1 - e.local_depth) v),
      List.getElem?_set_ne hne, ← List.getD_eq_getElem?_getD]
  rw [all_congr_mem hsame]
  have hset : ((e.sequence.set (D - 1 - e.local_depth) v)[D - 1 -
      e.local_depth]?).getD false = v := by
    rw [List.getElem?_set_eq_of_lt v (by omega)]
    rfl
  simp [hset]

lemma reachableDir_wf {D : Nat} {entries : List ExtendibleHashEntry}
    (h : ReachableDir D entries) : dirWF D entries := by
  induction h with
  | start =>
    intro e he
    simp only [freshDir, List.mem_singleton] at he
    subst he
    simp [natToBits]
  | split pre post e r0 r1 _hr hd ih =>
    intro e' he'
    have hwfe : e.sequence.length = D ∧ e.local_depth ≤ D :=
      ih e (by simp)
    rcases List.mem_append.mp he' with hpre | hrest
    · exact ih e' (List.mem_append.mpr (Or.inl hpre))
    · rcases List.mem_cons.mp hrest with rfl | hrest'
      · simp [splitEntry, hwfe.1]
        omega
      · rcases List.mem_cons.mp hrest' with rfl | hpost
        · simp [splitEntry, hwfe.1]
          omega
        · exact ih e' (List.mem_append.mpr (Or.inr (List.mem_cons_of_mem e hpost)))

lemma reachableDir_countP {D : Nat} {entries : List ExtendibleHashEntry}
    (h : ReachableDir D entries) (bits : List Bool) :
    List.countP (fun e => matchesEntry D e bits) entries = 1 := by
  induction h with
  | start =>
    simp [freshDir, List.countP_cons, matchesEntry]
  | split pre post e r0 r1 hr hd ih =>
    have hwfe : e.sequence.length = D ∧ e.local_depth ≤ D :=
      reachableDir_wf hr e (by simp)
    have h0 := @matchesEntry_setChild D e bits hwfe.1 hd false r0
    have h1 := @matchesEntry_setChild D e bits hwfe.1 hd true r1
    rw [List.countP_append, List.countP_cons] at ih
    rw [List.countP_append, List.countP_cons, List.countP_cons, splitEntry]
    dsimp only at h0 h1 ⊢
    rw [h0, h1]
    cases hme : matchesEntry D e bits <;>
      cases hbit : bits.getD (D - 1 - e.local_depth) false <;>
        simp [hme, hbit] at ih ⊢ <;> omega

/-- Sequences of `search` and `insert` calls against an open index, applied to
the in-memory state (`Sum.inl` a searched key, `Sum.inr` an inserted record). -/
def runOps {Key : Type v} {Rec : Type u} (D : Nat) (hashf : Key → Nat)
    (indexf : Rec → Key) : EHFState Rec → List (Key ⊕ Rec) → EHFState Rec
  | s, [] => s
  | s, .inl k :: rest => runOps D hashf indexf (searchEHF D hashf s k).1 rest
  | s, .inr r :: rest => runOps D hashf indexf (insertEHF D hashf indexf s r).1 rest

lemma searchEHF_fst {Key : Type v} {Rec : Type u} (D : Nat) (hashf : Key → Nat)
    (s : EHFState Rec) (k : Key) : (searchEHF D hashf s k).1 = s := by
  unfold searchEHF
  cases lookup D s.dir (hashSeqCode D (hashf k)) <;> rfl

lemma insertEHF_fst {Key : Type v} {Rec : Type u} (D : Nat) (hashf : Key → Nat)
    (indexf : Rec → Key) (s : EHFState Rec) (r : Rec) :
    (insertEHF D hashf indexf s r).1 = s := by
  unfold insertEHF
  cases lookup D s.dir (hashSeqCode D (hashf (indexf r))) <;> rfl

lemma runOps_eq {Key : Type v} {Rec : Type u} (D : Nat) (hashf : Key → Nat)
    (indexf : Rec → Key) (s : EHFState Rec) (ops : List (Key ⊕ Rec)) :
    runOps D hashf indexf s ops = s := by
  induction ops generalizing s with
  | nil => rfl
  | cons op rest ih =>
    cases op with
    | inl k => rw [runOps, searchEHF_fst, ih]
    | inr r => rw [runOps, insertEHF_fst, ih]

/-! ### Claim theorems -/

/-- C1 (code_bug evidence): on a freshly built index, `insert(5)` completes
successfully, yet the subsequent `search(5)` returns the empty vector, not a
result containing the record — `ExtendibleHashFile::insert` stores nothing
(its body ends after printing `bucket_ref`) and `search` never fills `result`.
The no-mutation half does hold: the state returned by `insert` is unchanged. -/
theorem insert_ok_but_search_misses_record :
    insertEHF 32 (fun k : Nat => k) (fun r : Nat => r)
        ⟨freshDir 32, ⟨[], [], []⟩⟩ 5 =
      (⟨freshDir 32, ⟨[], [], []⟩⟩, .ok ()) ∧
    searchEHF 32 (fun k : Nat => k) ⟨freshDir 32, ⟨[5], [], []⟩⟩ 5 =
      (⟨freshDir 32, ⟨[5], [], []⟩⟩, .ok []) :=
  ⟨rfl, rfl⟩

/-- C2 (code_bug evidence): with a record whose key is `7` present in the data
file, `search(7)` still returns the empty vector — the `result` vector
declared at line 200 of `ExtendibleHashFile::search` is returned at line 221
without any statement ever pushing a matching record into it. -/
theorem search_ignores_matching_records :
    searchEHF 32 (fun k : Nat => k) ⟨freshDir 32, ⟨[7], [], []⟩⟩ 7 =
      (⟨freshDir 32, ⟨[7], [], []⟩⟩, .ok []) :=
  rfl

/-- C3 (code_bug evidence): opening with a non-empty directory file (holding a
perfectly valid serialized directory) and a non-empty bucket file throws
`"Corrupt ExtendibleHashFile file structure."` instead of loading the
directory: the guard at line 185 (`index nonempty || hash nonempty`) is always
true once the both-empty branch failed, so the loading branch at lines 190-195
is unreachable. -/
theorem openEHF_throws_on_valid_nonempty_files :
    openEHF 32 (fun k : Nat => k) (fun r : Nat => r)
        ⟨[], List.replicate 1024 0, serializeDir 32 (freshDir 32)⟩ =
      (⟨[], List.replicate 1024 0, serializeDir 32 (freshDir 32)⟩,
        .error "Corrupt ExtendibleHashFile file structure.") :=
  rfl

/-- C4 (code_bug evidence): the hash sequence the code computes reduces the
hash modulo `global_depth` itself (`hash_function(key) % global_depth`,
source lines 215 and 226); at `D = 32` a hash value of `32` collapses to the
all-zero sequence instead of the low-order 32 bits of `32`. -/
theorem hashSeqCode_ne_lowBitsSpec : hashSeqCode 32 32 ≠ lowBitsSpec 32 32 := by
  decide

/-- C5: `lookup(bits)` returns the `bucket_ref` of an entry whose stored
sequence agrees with `bits` on the low-order `local_depth` bit positions
(compared from the least-significant position outward), and it throws the
fatal `runtime_error` exactly when no entry matches. -/
theorem lookup_matches_spec (D : Nat) (entries : List ExtendibleHashEntry)
    (bits : List Bool) :
    (∀ r, lookup D entries bits = .ok r →
      ∃ e ∈ entries, matchesEntry D e bits = true ∧ e.bucket_ref = r) ∧
    ((∃ msg, lookup D entries bits = .error msg) ↔
      ∀ e ∈ entries, matchesEntry D e bits = false) :=
  ⟨fun _ h => lookup_ok_mem h, lookup_error_iff⟩

/-- C5 witness: on a one-entry directory of local depth 1 whose sequence has
low-order bit `1`, looking up `11` returns that entry's `bucket_ref = 42`. -/
theorem lookup_matches_spec_witness :
    ∃ e ∈ [(⟨1, [false, true], 42⟩ : ExtendibleHashEntry)],
      matchesEntry 2 e [true, true] = true ∧ e.bucket_ref = 42 :=
  (lookup_matches_spec 2 [⟨1, [false, true], 42⟩] [true, true]).1 42 rfl

/-- C6: in any directory reachable from the initial one-entry directory by
split operations, every `D`-bit string is matched by exactly one entry, and
`lookup` on it succeeds without reaching the no-match error branch. -/
theorem reachable_totality {D : Nat} {entries : List ExtendibleHashEntry}
    (h : ReachableDir D entries) (bits : List Bool) (_hbits : bits.length = D) :
    (entries.filter (fun e => matchesEntry D e bits)).length = 1 ∧
      ∃ r, lookup D entries bits = .ok r := by
  have hc := reachableDir_countP h bits
  refine ⟨by rw [← List.countP_eq_length_filter]; exact hc, ?_⟩
  apply lookup_ok_of_mem
  exact List.countP_pos_iff.mp (by omega)

/-- C6 witness: after splitting the initial entry of a `D = 2` directory, the
2-bit string `10` is matched by exactly one of the two child entries and
`lookup` succeeds on it. -/
theorem reachable_totality_witness :
    (([] ++ (splitEntry 2 ⟨0, natToBits 2 0, 0⟩ 5 7).1 ::
        (splitEntry 2 ⟨0, natToBits 2 0, 0⟩ 5 7).2 :: []).filter
      (fun e => matchesEntry 2 e [true, false])).length = 1 ∧
      ∃ r, lookup 2
        ([] ++ (splitEntry 2 ⟨0, natToBits 2 0, 0⟩ 5 7).1 ::
          (splitEntry 2 ⟨0, natToBits 2 0, 0⟩ 5 7).2 :: []) [true, false] = .ok r :=
  reachable_totality
    (ReachableDir.split [] [] ⟨0, natToBits 2 0, 0⟩ 5 7 ReachableDir.start
      (by decide))
    [true, false] rfl

/-- C7: when exactly one of the directory file and the bucket file has content
and the other is empty, the constructor throws the structural-corruption error
and leaves the contents of every file exactly as they were. -/
theorem openEHF_half_empty_corrupt {Key : Type v} {Rec : Type u} (D : Nat)
    (hashf : Key → Nat) (indexf : Rec → Key) (fs : FS Rec)
    (h : (fs.idx ≠ [] ∧ fs.ehash = []) ∨ (fs.idx = [] ∧ fs.ehash ≠ [])) :
    openEHF D hashf indexf fs =
      (fs, .error "Corrupt ExtendibleHashFile file structure.") := by
  unfold openEHF
  rcases h with ⟨h1, h2⟩ | ⟨h1, h2⟩ <;>
    rw [if_neg (by simp [h1, h2]), if_pos (by simp [h1, h2])]

/-- C7 witness: a one-byte directory file next to an empty bucket file is
rejected as corrupt with the file contents untouched. -/
theorem openEHF_half_empty_corrupt_witness :
    openEHF 32 (fun k : Nat => k) (fun r : Nat => r)
        ⟨([] : List Nat), [], [3]⟩ =
      (⟨([] : List Nat), [], [3]⟩,
        .error "Corrupt ExtendibleHashFile file structure.") :=
  openEHF_half_empty_corrupt 32 (fun k : Nat => k) (fun r : Nat => r)
    ⟨([] : List Nat), [], [3]⟩ (Or.inl ⟨by decide, rfl⟩)

/-- C8: serializing the in-memory directory to the directory file, the way the
teardown does, and reloading that file through the loading constructor gives a
directory on which `lookup` returns the same result as the original for every
bit string. -/
theorem roundTrip_preserves_lookup {Rec : Type u} (D : Nat) (s : EHFState Rec)
    (hwf : ∀ e ∈ s.dir, entryWF D e) (bits : List Bool) :
    lookup D (deserializeDir D (destructorEHF D s).idx) bits =
      lookup D s.dir bits := by
  show lookup D (deserializeDir D (serializeDir D s.dir)) bits = _
  rw [deserializeDir_serializeDir hwf]

/-- C8 witness: a concrete one-entry directory survives the serialize-reload
round trip with an identical `lookup` answer. -/
theorem roundTrip_preserves_lookup_witness :
    lookup 2 (deserializeDir 2
        (destructorEHF 2 (⟨[⟨1, [true, false], 3⟩], ⟨([] : List Nat), [], []⟩⟩ :
          EHFState Nat)).idx) [false, true] =
      lookup 2 [(⟨1, [true, false], 3⟩ : ExtendibleHashEntry)] [false, true] :=
  roundTrip_preserves_lookup 2
    ⟨[⟨1, [true, false], 3⟩], ⟨([] : List Nat), [], []⟩⟩ (by decide) [false, true]

/-- C9: building an index over empty files succeeds with the fresh one-entry
directory, and `search` on that fresh index returns the empty vector with no
error, for every key. -/
theorem fresh_index_search_empty {Key : Type v} {Rec : Type u} (D : Nat)
    (hashf : Key → Nat) (indexf : Rec → Key) (fs : FS Rec) (k : Key)
    (hraw : fs.raw = []) (hehash : fs.ehash = []) (hidx : fs.idx = []) :
    openEHF D hashf indexf fs = (fs, .ok (freshDir D)) ∧
      searchEHF D hashf ⟨freshDir D, fs⟩ k = (⟨freshDir D, fs⟩, .ok []) := by
  constructor
  · unfold openEHF
    rw [if_pos ⟨hidx, hehash⟩, hraw]
    rfl
  · unfold searchEHF
    rw [lookup_freshDir]

/-- C9 witness: searching key `0` on an index freshly built over empty files
gives the empty result and no error. -/
theorem fresh_index_search_empty_witness :
    openEHF 32 (fun k : Nat => k) (fun r : Nat => r)
        (⟨[], [], []⟩ : FS Nat) = (⟨[], [], []⟩, .ok (freshDir 32)) ∧
      searchEHF 32 (fun k : Nat => k)
          (⟨freshDir 32, ⟨[], [], []⟩⟩ : EHFState Nat) 0 =
        (⟨freshDir 32, ⟨[], [], []⟩⟩, .ok []) :=
  fresh_index_search_empty 32 (fun k : Nat => k) (fun r : Nat => r)
    ⟨[], [], []⟩ 0 rfl rfl rfl

/-- C10: any sequence of `search` and `insert` calls leaves the in-memory
state — in particular the directory with all its entries — unchanged, each
single call returns its state unchanged, and the destructor only serializes
the directory into the directory file without altering it. -/
theorem directory_frame {Key : Type v} {Rec : Type u} (D : Nat)
    (hashf : Key → Nat) (indexf : Rec → Key) (s : EHFState Rec)
    (ops : List (Key ⊕ Rec)) (k : Key) (r : Rec) :
    (runOps D hashf indexf s ops).dir = s.dir ∧
      (searchEHF D hashf s k).1 = s ∧
      (insertEHF D hashf indexf s r).1 = s ∧
      destructorEHF D s = { s.fs with idx := serializeDir D s.dir } :=
  ⟨by rw [runOps_eq], searchEHF_fst D hashf s k, insertEHF_fst D hashf indexf s r,
    rfl⟩

end ExtHash
